import Mathlib

/-!
# Verification of the CMS hospitals downloader (`src/main.py`)

Shallow embedding of the program's data model and operations, with theorems
settling the specification claims.  Text is modelled as `List Char` in the
low-level string-processing layers, with `String` wrappers at the API level
(a Lean `String` is a structure holding a `List Char`, so the conversions are
definitional).  Bytes are modelled as `Nat` values; machine I/O (HTTP,
filesystem, clock) is modelled with explicit oracles.

External-library behaviour used by `main.py` (Python's `str` methods,
`pathlib.Path`, the `csv` module, `unicodedata`) is embedded faithfully for
the inputs the program's logic depends on; the Unicode tables behind
`unicodedata.normalize("NFKD", ·)`, `unicodedata.combining` and `str.lower`
are modelled exactly on the ASCII range (where decomposition is the identity,
no character is combining, and lowering maps `A`-`Z` down) plus an explicit
table of accented Latin letters.
-/

namespace CMS

/-! ## Python string primitives -/

/-- Python truthiness-based `a or b` for optional strings: `None` and the
empty string are falsy, so both fall through to `b`. -/
def pyOr (a b : Option String) : Option String :=
  match a with
  | some s => if s = "" then b else some s
  | none => b

/-- Python `a or b` where `b` is a plain (default) string. -/
def pyOrStr (a : Option String) (b : String) : String :=
  match a with
  | some s => if s = "" then b else s
  | none => b

/-- Whitespace characters stripped by Python's `str.strip()` (ASCII
whitespace plus the common Unicode space characters). -/
def isPyWS (c : Char) : Bool :=
  c = ' ' || c = '\t' || c = '\n' || c = '\r' ||
  c.toNat = 0x0b || c.toNat = 0x0c ||
  c.toNat = 0x1c || c.toNat = 0x1d || c.toNat = 0x1e || c.toNat = 0x1f ||
  c.toNat = 0x85 || c.toNat = 0xa0 || c.toNat = 0x1680 ||
  (0x2000 ≤ c.toNat && c.toNat ≤ 0x200a) ||
  c.toNat = 0x2028 || c.toNat = 0x2029 || c.toNat = 0x202f ||
  c.toNat = 0x205f || c.toNat = 0x3000

/-- `str.strip()` on a character list: drop whitespace from both ends. -/
def pyStripL (l : List Char) : List Char :=
  ((l.dropWhile isPyWS).reverse.dropWhile isPyWS).reverse

/-- Python `str.strip()`. -/
def pyStrip (s : String) : String := (pyStripL s.toList).asString

/-- Python `str.lower()`, modelled character-wise (exact on ASCII, identity on
the other characters that appear in this development). -/
def pyLower (s : String) : String := (s.toList.map Char.toLower).asString

/-! ## Header Normalizer (`to_snake_case`, main.py lines 73-81) -/

/-- NFKD decomposition of one character: the identity on ASCII (exact), with
an explicit table for the accented Latin letters this development evaluates
(each decomposes to its base letter followed by a combining accent). -/
def charNFKD (c : Char) : List Char :=
  if c = 'á' then ['a', '́'] else
  if c = 'é' then ['e', '́'] else
  if c = 'í' then ['i', '́'] else
  if c = 'ó' then ['o', '́'] else
  if c = 'ú' then ['u', '́'] else
  if c = 'ñ' then ['n', '̃'] else
  if c = 'ü' then ['u', '̈'] else
  if c = 'Á' then ['A', '́'] else
  if c = 'É' then ['E', '́'] else
  if c = 'Í' then ['I', '́'] else
  if c = 'Ó' then ['O', '́'] else
  if c = 'Ú' then ['U', '́'] else
  if c = 'Ñ' then ['N', '̃'] else
  if c = 'Ü' then ['U', '̈'] else
  [c]

/-- `unicodedata.normalize("NFKD", ·)` on a character list. -/
def nfkdL (l : List Char) : List Char := l.flatMap charNFKD

/-- `unicodedata.combining(c) > 0`: combining diacritical marks.  Exact on
ASCII (never combining); the combining diacritical marks block U+0300-U+036F
is the part of the table this program's data reaches. -/
def isCombining (c : Char) : Bool := 0x300 ≤ c.toNat && c.toNat ≤ 0x36f

/-- ASCII letters and digits: the character class `[0-9a-zA-Z]` of the
`_non_alnum` regex. -/
def isAsciiAlnum (c : Char) : Bool :=
  (48 ≤ c.toNat && c.toNat ≤ 57) || (97 ≤ c.toNat && c.toNat ≤ 122) ||
  (65 ≤ c.toNat && c.toNat ≤ 90)

/-- `_non_alnum.sub("_", s)`: replace every maximal run of characters outside
`[0-9a-zA-Z]` with a single underscore.  The Boolean argument records whether
the previous character was part of such a run (so the run contributes only
one underscore). -/
def subNonAlnum : List Char → Bool → List Char
  | [], _ => []
  | c :: cs, inRun =>
    if isAsciiAlnum c then c :: subNonAlnum cs false
    else if inRun then subNonAlnum cs true
    else '_' :: subNonAlnum cs true

/-- `_underscore_collapse.sub("_", s)`: collapse runs of underscores to one.
The Boolean argument records whether the previous character was an
underscore. -/
def collapseUnd : List Char → Bool → List Char
  | [], _ => []
  | c :: cs, prevU =>
    if c = '_' then
      if prevU then collapseUnd cs true else '_' :: collapseUnd cs true
    else c :: collapseUnd cs false

/-- Python `s.strip("_")`. -/
def stripUnd (l : List Char) : List Char :=
  ((l.dropWhile (fun c => c = '_')).reverse.dropWhile (fun c => c = '_')).reverse

/-- `to_snake_case` on a character list (main.py lines 73-81): NFKD, drop
combining marks, lowercase, replace non-alphanumeric runs with `_`, collapse
`_` runs, strip `_` from the ends, and fall back to `"column"` when empty. -/
def snakeL (l : List Char) : List Char :=
  let nfkd := nfkdL l
  let noDiacritics := nfkd.filter (fun c => !isCombining c)
  let lowered := noDiacritics.map Char.toLower
  let s := stripUnd (collapseUnd (subNonAlnum lowered false) false)
  if s = [] then "column".toList else s

/-- `to_snake_case` (main.py lines 73-81). -/
def to_snake_case (label : String) : String := (snakeL label.toList).asString

/-! ## Output filename derivation (main.py lines 171-172)

`stem = Path(url.split("?")[0]).stem or "file"` -/

/-- Python `url.split("?")[0]`: everything before the first `?`. -/
def splitQueryL (l : List Char) : List Char := l.takeWhile (fun c => c ≠ '?')

/-- Split a character list on `/` (Python `str.split('/')` semantics: `n`
separators produce `n+1` pieces, empty pieces included). -/
def splitSlash : List Char → List (List Char)
  | [] => [[]]
  | c :: rest =>
    match splitSlash rest with
    | [] => [[c]]
    | x :: xs => if c = '/' then [] :: x :: xs else (c :: x) :: xs

/-- The path components `pathlib` keeps: empty pieces (repeated or trailing
slashes) and `.` pieces are dropped. -/
def pathParts (l : List Char) : List (List Char) :=
  (splitSlash l).filter (fun p => p ≠ [] ∧ p ≠ ['.'])

/-- `PurePosixPath(s).name`: the last kept component, or empty. -/
def pathNameL (l : List Char) : List Char := (pathParts l).getLast?.getD []

/-- Index of the last `.` in a character list, if any. -/
def lastDotIdx (l : List Char) : Option Nat :=
  l.reverse.findIdx? (fun c => c = '.') |>.map (fun j => l.length - 1 - j)

/-- `pathlib` stem rule: drop the last suffix, where a suffix starts at the
last `.` only if that dot is neither the first nor the last character of the
name. -/
def stemOfName (name : List Char) : List Char :=
  match lastDotIdx name with
  | some i => if 0 < i ∧ i < name.length - 1 then name.take i else name
  | none => name

/-- `Path(url.split("?")[0]).stem` on a character list. -/
def pathStemL (l : List Char) : List Char := stemOfName (pathNameL l)

/-- `stem = Path(url.split("?")[0]).stem or "file"` (main.py line 171). -/
def deriveStem (url : String) : String :=
  let st := pathStemL (splitQueryL url.toList)
  if st = [] then "file" else st.asString

/-- The output file name `f"{stem}__snake.csv"` (main.py line 172). -/
def outFileName (url : String) : String := deriveStem url ++ "__snake.csv"

/-! ## Catalog data model (§3 of the spec; JSON shapes used by main.py)

Optional JSON string fields are `Option String` (`none` = absent).  A theme
list entry may be a non-string JSON value, which the `isinstance` check in
`fetch_hospital_datasets` rejects; that is the `other` constructor. -/

inductive ThemeVal where
  | str (s : String)
  | other
deriving DecidableEq

structure Distribution where
  mediaType : Option String
  downloadURL : Option String
  accessURL : Option String
deriving DecidableEq

structure DatasetItem where
  identifier : Option String
  id : Option String
  title : Option String
  modified : Option String
  theme : Option (List ThemeVal)
  distribution : Option (List Distribution)
deriving DecidableEq

/-- A Dataset Run Record: `{"modified": ..., "last_seen": ...}`. -/
structure DsRecord where
  modified : String
  lastSeen : String
deriving DecidableEq

/-- Run-State: `{"last_run": ..., "datasets": {...}}`.  The `datasets` dict
is modelled as an insertion-ordered association list with unique keys, like a
Python dict. -/
structure RunState where
  lastRun : Option String
  datasets : List (String × DsRecord)
deriving DecidableEq

/-- Python `dict[k] = v`: replace in place if the key exists, else append. -/
def dictInsert (k : String) (v : DsRecord) :
    List (String × DsRecord) → List (String × DsRecord)
  | [] => [(k, v)]
  | (k', v') :: rest =>
    if k' = k then (k, v) :: rest else (k', v') :: dictInsert k v rest

/-! ## Discovery (`fetch_hospital_datasets`, main.py lines 111-124) -/

/-- One theme entry matches when it is a string whose stripped, lowercased
form is `"hospitals"` (`isinstance(t, str) and t.strip().lower() ==
"hospitals"`). -/
def themeMatches (t : ThemeVal) : Bool :=
  match t with
  | .str s => pyLower (pyStrip s) = "hospitals"
  | .other => false

/-- Whether `fetch_hospital_datasets` keeps an item: `themes = item.get
("theme") or []` followed by `any(...)`. -/
def isHospitalItem (item : DatasetItem) : Bool :=
  (item.theme.getD []).any themeMatches

/-- The selection loop of `fetch_hospital_datasets` (main.py lines 116-124),
applied to the decoded catalog items. -/
def fetch_hospital_datasets : List DatasetItem → List DatasetItem
  | [] => []
  | item :: rest =>
    if isHospitalItem item then item :: fetch_hospital_datasets rest
    else fetch_hospital_datasets rest

/-! ## Distribution selection (`distributions_to_download`,
main.py lines 127-146) -/

/-- A work tuple `(url, ds_id, ds_title, modified)`. -/
structure WorkTuple where
  url : String
  dsId : String
  dsTitle : String
  modified : String
deriving DecidableEq

/-- `ds_id = item.get("identifier") or item.get("id") or "unknown"`. -/
def dsIdOf (item : DatasetItem) : String :=
  pyOrStr item.identifier (pyOrStr item.id "unknown")

/-- `ds_title = (item.get("title") or f"dataset_{ds_id}").strip()`. -/
def dsTitleOf (item : DatasetItem) : String :=
  pyStrip (pyOrStr item.title ("dataset_" ++ dsIdOf item))

/-- `modified = (item.get("modified") or "").strip()`. -/
def modifiedOf (item : DatasetItem) : String :=
  pyStrip (pyOrStr item.modified "")

/-- `media = (d.get("mediaType") or "").lower()`. -/
def mediaOf (d : Distribution) : String := pyLower (pyOrStr d.mediaType "")

/-- `url = d.get("downloadURL") or d.get("accessURL")`. -/
def urlOf (d : Distribution) : Option String := pyOr d.downloadURL d.accessURL

/-- The loop guard `media == "text/csv" and url` (with Python truthiness on
`url`). -/
def eligibleDist (d : Distribution) : Bool :=
  (mediaOf d = "text/csv" : Bool) &&
    (match urlOf d with | some u => (u ≠ "" : Bool) | none => false)

/-- The collection loop over `item.get("distribution") or []`
(main.py lines 139-144). -/
def collectDists (dsId dsTitle modified : String) :
    List Distribution → List WorkTuple
  | [] => []
  | d :: rest =>
    if eligibleDist d then
      ⟨(urlOf d).getD "", dsId, dsTitle, modified⟩ :: collectDists dsId dsTitle modified rest
    else collectDists dsId dsTitle modified rest

/-- The skip test `ds_state and ds_state.get("modified") == modified`
(main.py line 136): in the typed model a present record is a non-empty dict,
hence truthy. -/
def skipDataset (item : DatasetItem) (state : RunState) : Bool :=
  match state.datasets.lookup (dsIdOf item) with
  | some rec => rec.modified = modifiedOf item
  | none => false

/-- `distributions_to_download` (main.py lines 127-146).  The second
component models the state dict, which Python passes by reference; the
function performs no write to it, so it is handed back as received. -/
def distributions_to_download (item : DatasetItem) (state : RunState) :
    List WorkTuple × RunState :=
  if skipDataset item state then ([], state)
  else
    (collectDists (dsIdOf item) (dsTitleOf item) (modifiedOf item)
      (item.distribution.getD []), state)

/-! ## Orchestrator scheduling loop (`main`, main.py lines 222-246)

Real time is an oracle `clock : Nat → String` giving the value of the `k`-th
call of `utc_now_iso()`; the eventual task results are an oracle
`outcomes : Nat → Option String` (the `Optional[Path]` returned by the `k`-th
scheduled `process_distribution` task, which `main` gathers and discards). -/

/-- The inner loop body: for each work tuple, a task is scheduled and
`state["datasets"][ds_id] = {"modified": ..., "last_seen": utc_now_iso()}`
runs immediately.  The accumulator carries the state and the clock counter. -/
def scheduleTuples (clock : Nat → String) :
    List WorkTuple → RunState → Nat → RunState × Nat
  | [], s, k => (s, k)
  | t :: rest, s, k =>
    scheduleTuples clock rest
      { s with datasets := dictInsert t.dsId ⟨t.modified, clock k⟩ s.datasets }
      (k + 1)

/-- The outer loop over catalog items (main.py lines 222-240), returning the
final state, the scheduled work tuples in scheduling order, and the final
clock counter. -/
def scheduleItems (clock : Nat → String) :
    List DatasetItem → RunState → Nat → RunState × List WorkTuple × Nat
  | [], s, k => (s, [], k)
  | item :: rest, s, k =>
    let (tuples, s1) := distributions_to_download item s
    let (s2, k2) := scheduleTuples clock tuples s1 k
    let (s3, ts, k3) := scheduleItems clock rest s2 k2
    (s3, tuples ++ ts, k3)

/-- The Run-State value passed to `save_state` at the end of `main`
(main.py lines 242-246): the scheduled state with a fresh `last_run`.  The
gathered task outcomes are received and discarded, exactly as
`await asyncio.gather(*tasks)` discards them. -/
def mainFinalState (clock : Nat → String) (items : List DatasetItem)
    (s0 : RunState) (outcomes : Nat → Option String) : RunState :=
  let (s, tasks, k) := scheduleItems clock items s0 0
  let _results := (List.range tasks.length).map outcomes
  { s with lastRun := some (clock k) }

/-! ## CSV layer (main.py lines 174-185)

`csv.reader(text.splitlines())` / `csv.writer(fout)` with the default
dialect: delimiter `,`, quote `"`, doubled-quote escaping, non-strict
reading, minimal quoting and `\r\n` terminators on writing.  Fields, lines
and file contents are `List Char`. -/

/-- The line-boundary characters of Python `str.splitlines`. -/
def isLineBoundary (c : Char) : Bool :=
  c = '\n' || c = '\r' || c.toNat = 0x0b || c.toNat = 0x0c ||
  c.toNat = 0x1c || c.toNat = 0x1d || c.toNat = 0x1e ||
  c.toNat = 0x85 || c.toNat = 0x2028 || c.toNat = 0x2029

/-- `str.splitlines` worker: `cur` is the line being accumulated and
`afterCR` records that the previous character was a `\r` whose line was
already emitted (so a directly following `\n` belongs to the same `\r\n`
boundary and is swallowed).  A line is emitted at each boundary; a final
unterminated line is emitted only if non-empty. -/
def splitGo : List Char → List Char → Bool → List (List Char)
  | [], cur, _ => if cur = [] then [] else [cur]
  | c :: rest, cur, afterCR =>
    if c = '\n' then
      if afterCR then splitGo rest cur false
      else cur :: splitGo rest [] false
    else if c = '\r' then cur :: splitGo rest [] true
    else if isLineBoundary c then cur :: splitGo rest [] false
    else splitGo rest (cur ++ [c]) false

/-- Python `text.splitlines()`. -/
def splitlinesL (t : List Char) : List (List Char) := splitGo t [] false

/-- The quote-state of the CSV reader inside one record (the states of
CPython's `_csv` parser that can occur between line boundaries). -/
inductive QS where
  | startF   -- START_FIELD: about to start a field
  | inF      -- IN_FIELD: inside an unquoted field
  | inQ      -- IN_QUOTED_FIELD: inside a quoted field
  | quoteQ   -- QUOTE_IN_QUOTED_FIELD: just saw a quote inside a quoted field
deriving DecidableEq

/-- A record in progress: completed fields, the current field, the state. -/
structure CsvRec where
  fields : List (List Char)
  cur : List Char
  q : QS
deriving DecidableEq

/-- One character of the CSV reader (default dialect, non-strict; the input
lines contain no line-boundary characters, so only `,` and `"` are special). -/
def csvChar (r : CsvRec) (c : Char) : CsvRec :=
  match r.q with
  | .startF =>
    if c = '"' then { r with q := .inQ }
    else if c = ',' then { r with fields := r.fields ++ [r.cur], cur := [] }
    else { r with cur := r.cur ++ [c], q := .inF }
  | .inF =>
    if c = ',' then { fields := r.fields ++ [r.cur], cur := [], q := .startF }
    else { r with cur := r.cur ++ [c] }
  | .inQ =>
    if c = '"' then { r with q := .quoteQ }
    else { r with cur := r.cur ++ [c] }
  | .quoteQ =>
    if c = '"' then { r with cur := r.cur ++ [c], q := .inQ }
    else if c = ',' then { fields := r.fields ++ [r.cur], cur := [], q := .startF }
    else { r with cur := r.cur ++ [c], q := .inF }

/-- End-of-line processing (the `'\0'` step of CPython's `_csv`): inside a
quoted field the record continues on the next line (the line break itself is
consumed by `splitlines` and not restored); in any other state the current
field is saved and the record is complete. -/
def csvEndLine (r : CsvRec) : Option (List (List Char)) × Option CsvRec :=
  match r.q with
  | .inQ => (none, some r)
  | _ => (some (r.fields ++ [r.cur]), none)

/-- The fresh-record value (START_RECORD with nothing accumulated). -/
def csvFresh : CsvRec := ⟨[], [], .startF⟩

/-- The CSV reader over a list of lines.  `carry` is the in-progress record
of a quoted field spanning lines (`none` = START_RECORD).  A blank line at
START_RECORD yields the empty record `[]`; at end of input an in-progress
record is flushed (non-strict reader). -/
def csvReadLines : List (List Char) → Option CsvRec → List (List (List Char))
  | [], none => []
  | [], some r => [r.fields ++ [r.cur]]
  | line :: rest, carry =>
    if carry = none ∧ line = [] then [] :: csvReadLines rest none
    else
      let r1 := line.foldl csvChar (carry.getD csvFresh)
      match csvEndLine r1 with
      | (some row, _) => row :: csvReadLines rest none
      | (none, r2) => csvReadLines rest r2

/-- `list(csv.reader(text.splitlines()))`. -/
def csvParseL (t : List Char) : List (List (List Char)) :=
  csvReadLines (splitlinesL t) none

/-- Minimal quoting: a field is quoted iff it contains the delimiter, the
quote character, or a character of the writer's line terminator `\r\n`. -/
def needsQuote (f : List Char) : Bool :=
  f.any (fun c => c = ',' || c = '"' || c = '\r' || c = '\n')

/-- Double each quote character of a field (doubled-quote escaping). -/
def escQuotes (f : List Char) : List Char :=
  f.flatMap (fun c => if c = '"' then ['"', '"'] else [c])

/-- One written field under minimal quoting. -/
def writeField (f : List Char) : List Char :=
  if needsQuote f then '"' :: escQuotes f ++ ['"'] else f

/-- Comma-join of written fields. -/
def joinComma : List (List Char) → List Char
  | [] => []
  | f :: rest =>
    match rest with
    | [] => f
    | _ :: _ => f ++ ',' :: joinComma rest

/-- The body of one written row, before the terminator: `csv.writer` writes a
single empty field as `""` so the row is distinguishable from a blank line. -/
def rowLine (row : List (List Char)) : List Char :=
  if row = [[]] then ['"', '"'] else joinComma (row.map writeField)

/-- `csv.writer(...).writerow(row)`: the row body plus the `\r\n` terminator
(written literally; the file is opened with `newline=""`). -/
def writeRow (row : List (List Char)) : List Char := rowLine row ++ ['\r', '\n']

/-- All rows written in order: the file content. -/
def writeRows (rows : List (List (List Char))) : List Char :=
  (rows.map writeRow).flatten

/-- The header rewrite of the reader/writer loop (main.py lines 179-185): the
first row is mapped through `to_snake_case` field-wise, later rows pass
through unchanged. -/
def normalizeRows : List (List (List Char)) → List (List (List Char))
  | [] => []
  | h :: t => h.map snakeL :: t

/-- The CSV-rewriting core of `process_distribution` (main.py lines 174-185):
the content written to the output file for a given decoded text. -/
def processCsvL (text : List Char) : List Char :=
  writeRows (normalizeRows (csvParseL text))

/-- String-level wrapper of `processCsvL`. -/
def processCsv (text : String) : String := (processCsvL text.toList).asString

/-! ## Byte decoding (`choose_text_encoding`, main.py lines 84-89, and
`raw.decode(encoding, errors="replace")`, line 168)

Bytes are `Nat` values below 256. -/

/-- A UTF-8 continuation byte. -/
def isCont (b : Nat) : Bool := 0x80 ≤ b && b ≤ 0xbf

/-- A valid second byte of a three-byte sequence headed by `b`. -/
def isCont2of3 (b b2 : Nat) : Bool :=
  (if b = 0xe0 then 0xa0 else 0x80) ≤ b2 && b2 ≤ (if b = 0xed then 0x9f else 0xbf)

/-- A valid second byte of a four-byte sequence headed by `b`. -/
def isCont2of4 (b b2 : Nat) : Bool :=
  (if b = 0xf0 then 0x90 else 0x80) ≤ b2 && b2 ≤ (if b = 0xf4 then 0x8f else 0xbf)

/-- Whether a byte list is entirely well-formed UTF-8 (Python's strict
`bytes.decode("utf-8")` succeeding).  Written with explicit byte patterns so
the recursion is structural. -/
def utf8Valid : List Nat → Bool
  | [] => true
  | b :: rest =>
    if b < 0x80 then utf8Valid rest
    else if 0xc2 ≤ b && b ≤ 0xdf then
      match rest with
      | b2 :: rest2 => isCont b2 && utf8Valid rest2
      | [] => false
    else if 0xe0 ≤ b && b ≤ 0xef then
      match rest with
      | b2 :: b3 :: rest3 => isCont2of3 b b2 && isCont b3 && utf8Valid rest3
      | _ => false
    else if 0xf0 ≤ b && b ≤ 0xf4 then
      match rest with
      | b2 :: b3 :: b4 :: rest4 =>
        isCont2of4 b b2 && isCont b3 && isCont b4 && utf8Valid rest4
      | _ => false
    else false

/-- Fuelled worker for replacement decoding; every step consumes at least
one byte, so fuel equal to the byte count suffices.  Well-formed sequences
become their scalar, anything else becomes one replacement character
`U+FFFD` per offending byte (modelled; no claim depends on the grouping of
replacement characters). -/
def utf8ReplFuel : Nat → List Nat → List Char
  | 0, _ => []
  | _, [] => []
  | fuel + 1, b :: rest =>
    if b < 0x80 then Char.ofNat b :: utf8ReplFuel fuel rest
    else if 0xc2 ≤ b && b ≤ 0xdf then
      match rest with
      | b2 :: rest2 =>
        if isCont b2 then
          Char.ofNat ((b - 0xc0) * 0x40 + (b2 - 0x80)) :: utf8ReplFuel fuel rest2
        else Char.ofNat 0xfffd :: utf8ReplFuel fuel rest
      | [] => [Char.ofNat 0xfffd]
    else if 0xe0 ≤ b && b ≤ 0xef then
      match rest with
      | b2 :: b3 :: rest3 =>
        if isCont2of3 b b2 && isCont b3 then
          Char.ofNat ((b - 0xe0) * 0x1000 + (b2 - 0x80) * 0x40 + (b3 - 0x80)) ::
            utf8ReplFuel fuel rest3
        else Char.ofNat 0xfffd :: utf8ReplFuel fuel rest
      | _ => Char.ofNat 0xfffd :: utf8ReplFuel fuel rest
    else if 0xf0 ≤ b && b ≤ 0xf4 then
      match rest with
      | b2 :: b3 :: b4 :: rest4 =>
        if isCont2of4 b b2 && isCont b3 && isCont b4 then
          Char.ofNat ((b - 0xf0) * 0x40000 + (b2 - 0x80) * 0x1000 +
            (b3 - 0x80) * 0x40 + (b4 - 0x80)) :: utf8ReplFuel fuel rest4
        else Char.ofNat 0xfffd :: utf8ReplFuel fuel rest
      | _ => Char.ofNat 0xfffd :: utf8ReplFuel fuel rest
    else Char.ofNat 0xfffd :: utf8ReplFuel fuel rest

/-- `raw.decode("utf-8", errors="replace")`-style decoding. -/
def utf8DecodeReplace (l : List Nat) : List Char := utf8ReplFuel l.length l

/-- The UTF-8 byte-order mark. -/
def bomBytes : List Nat := [0xef, 0xbb, 0xbf]

/-- Strip a leading BOM (the `utf-8-sig` codec). -/
def stripBOM (l : List Nat) : List Nat :=
  if l.take 3 = bomBytes then l.drop 3 else l

/-- The two encodings the program ever chooses. -/
inductive Encoding where
  | utf8sig
  | latin1
deriving DecidableEq

/-- `choose_text_encoding` (main.py lines 84-89): strict `utf-8-sig` on the
sample, else Latin-1. -/
def choose_text_encoding (sample : List Nat) : Encoding :=
  if utf8Valid (stripBOM sample) then .utf8sig else .latin1

/-- `raw.decode(encoding, errors="replace")` (main.py line 168); Latin-1
maps each byte to the code point of the same value and never fails. -/
def decodeWith (enc : Encoding) (raw : List Nat) : List Char :=
  match enc with
  | .utf8sig => utf8DecodeReplace (stripBOM raw)
  | .latin1 => raw.map Char.ofNat

/-! ## Distribution Processor (`process_distribution`, main.py lines 149-195)

The fallible external effects are an oracle: the HTTP download and the two
filesystem operations, each an `Except` (an `error` models a raised
exception).  Log lines are structural; their constructors carry exactly the
values interpolated into the corresponding f-strings of the source. -/

/-- Console/error output lines of `process_distribution`. -/
inductive LogLine where
  /-- `f"[ERROR] Download failed for {url} ({dataset_id}): {e}"` -/
  | errDownload (url dsId msg : String)
  /-- `f"[ERROR] Processing failed for {url} ({dataset_id}): {e}"` -/
  | errProcessing (url dsId msg : String)
  /-- `f"[OK] {dataset_id} :: {dataset_title} → {out_path}"` -/
  | okLine (dsId title path : String)
deriving DecidableEq

/-- Effect oracle for one `process_distribution` call. -/
structure ProcEnv where
  /-- Result of `client.download_bytes(url)`: bytes, or a raised exception. -/
  download : Except String (List Nat)
  /-- Result of `out_dir.mkdir(parents=True, exist_ok=True)`. -/
  mkdirResult : Except String Unit
  /-- Result of opening and writing the output file (the `with open ...`
  block): a raised exception anywhere inside the `try` of lines 174-186. -/
  writeResult : Except String Unit

/-- `process_distribution` (main.py lines 149-195).  The outer `Except` is a
failure the function raises to its caller; `.ok` carries the log lines and
the returned value (`None` or the output path with the content written).
The download failure (lines 160-165) and any failure inside the
`try` of lines 174-186 are caught; the statements at lines 167-172 —
decoding (total), `out_dir.mkdir`, and filename derivation (total) — run
outside both handlers, so an `mkdir` failure propagates.  The semaphore
(line 157) bounds concurrency only and does not affect the data path. -/
def process_distribution (env : ProcEnv) (url dsId dsTitle outDir : String) :
    Except String (List LogLine × Option (String × String)) :=
  match env.download with
  | .error e => .ok ([.errDownload url dsId e], none)
  | .ok raw =>
    let enc := choose_text_encoding (raw.take 4096)
    let text := decodeWith enc raw
    match env.mkdirResult with
    | .error e => .error e
    | .ok _ =>
      let stem := deriveStem url
      let outPath := outDir ++ "/" ++ stem ++ "__snake.csv"
      match env.writeResult with
      | .error e => .ok ([.errProcessing url dsId e], none)
      | .ok _ =>
        .ok ([.okLine dsId dsTitle outPath], some (outPath, (processCsvL text).asString))

/-! ## Spec-side predicates used to state the claims -/

/-- The character set the spec allows in normalized headers: lowercase ASCII
letters, ASCII digits, underscore. -/
def isSnakeChar (c : Char) : Bool :=
  (97 ≤ c.toNat && c.toNat ≤ 122) || (48 ≤ c.toNat && c.toNat ≤ 57) || c = '_'

/-- No two consecutive underscores. -/
def noDoubleUnd (l : List Char) : Prop :=
  List.Chain' (fun a b => ¬(a = '_' ∧ b = '_')) l

/-- A field free of line-boundary characters (every field the CSV reader can
produce is of this form, since `splitlines` removes all boundaries). -/
def cleanField (f : List Char) : Bool := f.all (fun c => !isLineBoundary c)

/-- The work tuples the spec describes for a changed dataset: one tuple per
eligible descriptor, in the descriptors' original order. -/
def eligTuples (item : DatasetItem) : List WorkTuple :=
  ((item.distribution.getD []).filter eligibleDist).map
    (fun d => ⟨(urlOf d).getD "", dsIdOf item, dsTitleOf item, modifiedOf item⟩)

/-! # Theorems

## Header Normalizer: shape and idempotence lemmas -/

theorem mem_subNonAlnum {c : Char} {l : List Char} {r : Bool}
    (h : c ∈ subNonAlnum l r) : (isAsciiAlnum c ∧ c ∈ l) ∨ c = '_' := by
  induction l generalizing r with
  | nil => simp [subNonAlnum] at h
  | cons a cs ih =>
    unfold subNonAlnum at h
    split at h
    next ha =>
      rcases List.mem_cons.mp h with rfl | h2
      · exact .inl ⟨ha, by simp⟩
      · rcases ih h2 with ⟨h3, h4⟩ | h5
        · exact .inl ⟨h3, by simp [h4]⟩
        · exact .inr h5
    next ha =>
      split at h
      · rcases ih h with ⟨h3, h4⟩ | h5
        · exact .inl ⟨h3, by simp [h4]⟩
        · exact .inr h5
      · rcases List.mem_cons.mp h with rfl | h2
        · exact .inr rfl
        · rcases ih h2 with ⟨h3, h4⟩ | h5
          · exact .inl ⟨h3, by simp [h4]⟩
          · exact .inr h5

theorem mem_collapseUnd {c : Char} {l : List Char} {r : Bool}
    (h : c ∈ collapseUnd l r) : c ∈ l := by
  induction l generalizing r with
  | nil => simp [collapseUnd] at h
  | cons a cs ih =>
    unfold collapseUnd at h
    split at h
    · split at h
      · exact List.mem_cons_of_mem _ (ih h)
      · rcases List.mem_cons.mp h with rfl | h2
        · simp_all
        · exact List.mem_cons_of_mem _ (ih h2)
    · rcases List.mem_cons.mp h with rfl | h2
      · simp
      · exact List.mem_cons_of_mem _ (ih h2)

theorem head?_collapseUnd_true (l : List Char) :
    (collapseUnd l true).head? ≠ some '_' := by
  induction l with
  | nil => simp [collapseUnd]
  | cons a cs ih =>
    unfold collapseUnd
    by_cases ha : a = '_'
    · simpa [ha] using ih
    · simp [ha]

theorem chain'_collapseUnd (l : List Char) (r : Bool) :
    noDoubleUnd (collapseUnd l r) := by
  induction l generalizing r with
  | nil => cases r <;> exact List.chain'_nil
  | cons a cs ih =>
    by_cases ha : a = '_'
    · subst ha
      cases r with
      | true =>
        have he : collapseUnd ('_' :: cs) true = collapseUnd cs true := by
          simp [collapseUnd]
        rw [he]
        exact ih true
      | false =>
        have he : collapseUnd ('_' :: cs) false = '_' :: collapseUnd cs true := by
          simp [collapseUnd]
        rw [he]
        unfold noDoubleUnd
        rw [List.chain'_cons']
        refine ⟨?_, ih true⟩
        intro y hy hcon
        rw [Option.mem_def] at hy
        exact head?_collapseUnd_true cs (by rw [hy, hcon.2])
    · have he : collapseUnd (a :: cs) r = a :: collapseUnd cs false := by
        simp [collapseUnd, ha]
      rw [he]
      unfold noDoubleUnd
      rw [List.chain'_cons']
      refine ⟨?_, ih false⟩
      intro y _ hcon
      exact ha hcon.1

theorem stripUnd_isInfix (l : List Char) : stripUnd l <:+: l := by
  have h1 : List.rdropWhile (fun c => c = '_') (List.dropWhile (fun c => c = '_') l)
      <+: List.dropWhile (fun c => c = '_') l := List.rdropWhile_prefix _ _
  have h2 : List.dropWhile (fun c => c = '_') l <:+ l := List.dropWhile_suffix _
  exact (h1.isInfix).trans h2.isInfix

theorem mem_stripUnd {c : Char} {l : List Char} (h : c ∈ stripUnd l) : c ∈ l :=
  (stripUnd_isInfix l).subset h

theorem chain'_stripUnd {l : List Char} (h : noDoubleUnd l) :
    noDoubleUnd (stripUnd l) :=
  List.Chain'.infix h (stripUnd_isInfix l)

theorem head?_dropWhile_not_mem (p : Char → Bool) (l : List Char) (a : Char)
    (h : (List.dropWhile p l).head? = some a) : p a = false := by
  induction l with
  | nil => simp at h
  | cons x xs ih =>
    rw [List.dropWhile_cons] at h
    by_cases hx : p x
    · rw [if_pos hx] at h
      exact ih h
    · rw [if_neg hx] at h
      simp only [List.head?_cons, Option.some.injEq] at h
      subst h
      simpa using hx

theorem head?_stripUnd (l : List Char) : (stripUnd l).head? ≠ some '_' := by
  have hpre : stripUnd l <+: List.dropWhile (fun c => c = '_') l :=
    List.rdropWhile_prefix _ _
  obtain ⟨t, ht⟩ := hpre
  cases e : stripUnd l with
  | nil => simp
  | cons a r =>
    rw [e] at ht
    intro hc
    simp only [List.head?_cons, Option.some.injEq] at hc
    subst hc
    have hm : (List.dropWhile (fun c => (c = '_' : Bool)) l).head? = some '_' := by
      rw [← ht]
      simp
    have h2 := head?_dropWhile_not_mem _ _ _ hm
    simp at h2

theorem getLast?_stripUnd (l : List Char) : (stripUnd l).getLast? ≠ some '_' := by
  intro hc
  unfold stripUnd at hc
  rw [List.getLast?_reverse] at hc
  have h2 := head?_dropWhile_not_mem _ _ _ hc
  simp at h2

theorem toLower_not_upper (c : Char) :
    ¬(65 ≤ (Char.toLower c).toNat ∧ (Char.toLower c).toNat ≤ 90) := by
  unfold Char.toLower
  by_cases h : c.toNat ≥ 65 ∧ c.toNat ≤ 90
  · rw [if_pos h]
    obtain ⟨h1, h2⟩ := h
    set n := c.toNat with hn
    interval_cases n <;> decide
  · rw [if_neg h]
    omega

theorem toLower_id_of_not_upper {c : Char}
    (h : ¬(65 ≤ c.toNat ∧ c.toNat ≤ 90)) : Char.toLower c = c := by
  unfold Char.toLower
  rw [if_neg (by omega)]

theorem isSnakeChar_of_lowered {c : Char} (hal : isAsciiAlnum c = true)
    (hnu : ¬(65 ≤ c.toNat ∧ c.toNat ≤ 90)) : isSnakeChar c = true := by
  simp only [isAsciiAlnum, Bool.or_eq_true, Bool.and_eq_true, decide_eq_true_eq] at hal
  simp only [isSnakeChar, Bool.or_eq_true, Bool.and_eq_true, decide_eq_true_eq]
  omega

theorem snakeL_shape (l : List Char) :
    (∀ c ∈ snakeL l, isSnakeChar c) ∧ (snakeL l).head? ≠ some '_' ∧
    (snakeL l).getLast? ≠ some '_' ∧ noDoubleUnd (snakeL l) := by
  simp only [snakeL]
  by_cases he :
      stripUnd (collapseUnd (subNonAlnum
        (((nfkdL l).filter (fun c => !isCombining c)).map Char.toLower) false) false) = []
  · rw [if_pos he]
    refine ⟨by decide, by decide, by decide, ?_⟩
    unfold noDoubleUnd
    show List.Chain' _ ['c', 'o', 'l', 'u', 'm', 'n']
    simp [List.chain'_cons]
  · rw [if_neg he]
    refine ⟨?_, head?_stripUnd _, getLast?_stripUnd _,
      chain'_stripUnd (chain'_collapseUnd _ _)⟩
    intro c hc
    rcases mem_subNonAlnum (mem_collapseUnd (mem_stripUnd hc)) with ⟨hal, hcw⟩ | h5
    · obtain ⟨c', _, rfl⟩ := List.mem_map.mp hcw
      exact isSnakeChar_of_lowered hal (toLower_not_upper c')
    · simp [isSnakeChar, h5]

theorem charNFKD_ascii {c : Char} (h : c.toNat < 128) : charNFKD c = [c] := by
  unfold charNFKD
  repeat' rw [if_neg (by rintro rfl; revert h; decide)]

theorem isSnakeChar_ascii {c : Char} (h : isSnakeChar c = true) : c.toNat < 128 := by
  simp only [isSnakeChar, Bool.or_eq_true, Bool.and_eq_true, decide_eq_true_eq] at h
  rcases h with (h | h) | rfl
  · omega
  · omega
  · decide

theorem nfkdL_id {l : List Char} (h : ∀ c ∈ l, c.toNat < 128) : nfkdL l = l := by
  induction l with
  | nil => rfl
  | cons a cs ih =>
    unfold nfkdL at ih ⊢
    rw [List.flatMap_cons, charNFKD_ascii (h a (by simp)), ih (fun c hc => h c (by simp [hc]))]
    rfl

theorem filter_combining_id {l : List Char} (h : ∀ c ∈ l, c.toNat < 128) :
    l.filter (fun c => !isCombining c) = l := by
  rw [List.filter_eq_self]
  intro c hc
  have := h c hc
  simp only [isCombining, Bool.not_eq_true', Bool.and_eq_false_iff, decide_eq_false_iff_not]
  omega

theorem map_toLower_id {l : List Char} (h : ∀ c ∈ l, isSnakeChar c = true) :
    l.map Char.toLower = l := by
  have he : List.map Char.toLower l = List.map id l := by
    refine List.map_congr_left ?_
    intro c hc
    have hs := h c hc
    simp only [isSnakeChar, Bool.or_eq_true, Bool.and_eq_true, decide_eq_true_eq] at hs
    show Char.toLower c = c
    refine toLower_id_of_not_upper ?_
    rcases hs with (h1 | h1) | rfl
    · omega
    · omega
    · decide
  rw [he, List.map_id]

theorem snake_not_alnum_eq_und {c : Char} (hs : isSnakeChar c = true)
    (ha : isAsciiAlnum c = false) : c = '_' := by
  simp only [isSnakeChar, Bool.or_eq_true, Bool.and_eq_true, decide_eq_true_eq] at hs
  simp only [isAsciiAlnum, Bool.or_eq_false_iff, Bool.and_eq_false_iff,
    decide_eq_false_iff_not] at ha
  rcases hs with (h | h) | rfl
  · omega
  · omega
  · rfl

theorem subNonAlnum_id {l : List Char} (hs : ∀ c ∈ l, isSnakeChar c = true)
    (hc : noDoubleUnd l) :
    ∀ r : Bool, (r = true → l.head? ≠ some '_') → subNonAlnum l r = l := by
  induction l with
  | nil => intro r _; rfl
  | cons a cs ih =>
    intro r hr
    unfold subNonAlnum
    by_cases ha : isAsciiAlnum a
    · rw [if_pos ha]
      rw [ih (fun c h => hs c (by simp [h])) (List.Chain'.tail hc) false (by simp)]
    · have hau : a = '_' := snake_not_alnum_eq_und (hs a (by simp)) (by simpa using ha)
      subst hau
      cases r with
      | true => exact absurd rfl (hr rfl)
      | false =>
        rw [if_neg ha, if_neg (by simp)]
        congr 1
        refine ih (fun c h => hs c (by simp [h])) (List.Chain'.tail hc) true ?_
        intro _ hh
        unfold noDoubleUnd at hc
        rw [List.chain'_cons'] at hc
        exact hc.1 '_' (Option.mem_def.mpr hh) ⟨rfl, rfl⟩

theorem collapseUnd_id {l : List Char} (hc : noDoubleUnd l) :
    ∀ r : Bool, (r = true → l.head? ≠ some '_') → collapseUnd l r = l := by
  induction l with
  | nil => intro r _; rfl
  | cons a cs ih =>
    intro r hr
    unfold collapseUnd
    by_cases ha : a = '_'
    · subst ha
      cases r with
      | true => exact absurd rfl (hr rfl)
      | false =>
        rw [if_pos rfl]
        simp only [Bool.false_eq_true, reduceIte]
        congr 1
        refine ih (List.Chain'.tail hc) true ?_
        intro _ hh
        unfold noDoubleUnd at hc
        rw [List.chain'_cons'] at hc
        exact hc.1 '_' (Option.mem_def.mpr hh) ⟨rfl, rfl⟩
    · rw [if_neg ha]
      rw [ih (List.Chain'.tail hc) false (by simp)]

theorem dropWhile_id_of_head {l : List Char}
    (h : l.head? ≠ some '_') : List.dropWhile (fun c => c = '_') l = l := by
  cases l with
  | nil => rfl
  | cons a cs =>
    rw [List.dropWhile_cons, if_neg]
    simp only [List.head?_cons, Option.some.injEq] at h
    simpa using h

theorem stripUnd_id {l : List Char} (h1 : l.head? ≠ some '_')
    (h2 : l.getLast? ≠ some '_') : stripUnd l = l := by
  unfold stripUnd
  rw [dropWhile_id_of_head h1]
  rw [dropWhile_id_of_head (by rwa [List.head?_reverse]), List.reverse_reverse]

theorem snakeL_eq_column_or_shape (l : List Char) :
    snakeL l = "column".toList ∨
    (snakeL l ≠ [] ∧ snakeL l =
      stripUnd (collapseUnd (subNonAlnum
        (((nfkdL l).filter (fun c => !isCombining c)).map Char.toLower) false) false)) := by
  simp only [snakeL]
  by_cases he :
      stripUnd (collapseUnd (subNonAlnum
        (((nfkdL l).filter (fun c => !isCombining c)).map Char.toLower) false) false) = []
  · rw [if_pos he]
    exact .inl rfl
  · rw [if_neg he]
    exact .inr ⟨he, rfl⟩

theorem snakeL_fixed {y : List Char} (hs : ∀ c ∈ y, isSnakeChar c = true)
    (hh : y.head? ≠ some '_') (hl : y.getLast? ≠ some '_')
    (hc : noDoubleUnd y) (hne : y ≠ []) : snakeL y = y := by
  have hall : ∀ c ∈ y, c.toNat < 128 := fun c h => isSnakeChar_ascii (hs c h)
  simp only [snakeL]
  rw [nfkdL_id hall, filter_combining_id hall, map_toLower_id hs,
    subNonAlnum_id hs hc false (by simp), collapseUnd_id hc false (by simp),
    stripUnd_id hh hl, if_neg hne]

theorem snakeL_idem (l : List Char) : snakeL (snakeL l) = snakeL l := by
  obtain ⟨hs, hh, hl, hc⟩ := snakeL_shape l
  rcases snakeL_eq_column_or_shape l with h | ⟨hne, _⟩
  · rw [h]
    decide
  · exact snakeL_fixed hs hh hl hc hne

/-- C6: the header normalizer `to_snake_case` is total (a Lean function) and
idempotent, and its result contains only lowercase ASCII letters, ASCII
digits and underscores, with no leading underscore, no trailing underscore,
and no two consecutive underscores. -/
theorem to_snake_case_idempotent_and_shape (x : String) :
    to_snake_case (to_snake_case x) = to_snake_case x ∧
    (∀ c ∈ (to_snake_case x).toList, isSnakeChar c = true) ∧
    (to_snake_case x).toList.head? ≠ some '_' ∧
    (to_snake_case x).toList.getLast? ≠ some '_' ∧
    noDoubleUnd (to_snake_case x).toList := by
  obtain ⟨hs, hh, hl, hc⟩ := snakeL_shape x.toList
  have hconv : ∀ l : List Char, (List.asString l).toList = l := fun _ => rfl
  refine ⟨?_, ?_, ?_, ?_, ?_⟩
  · show (snakeL ((snakeL x.toList).asString).toList).asString =
      (snakeL x.toList).asString
    rw [hconv, snakeL_idem]
  · show ∀ c ∈ ((snakeL x.toList).asString).toList, _
    rw [hconv]
    exact hs
  · show ((snakeL x.toList).asString).toList.head? ≠ _
    rw [hconv]
    exact hh
  · show ((snakeL x.toList).asString).toList.getLast? ≠ _
    rw [hconv]
    exact hl
  · show noDoubleUnd ((snakeL x.toList).asString).toList
    rw [hconv]
    exact hc

/-- C7: the literal mappings of the header normalizer: `"Facility Name"`,
`"Hospital   Overall Rating (1-5)"`, `"Código Postal"`, the empty string,
and a punctuation-only string. -/
theorem to_snake_case_literal_cases :
    to_snake_case "Facility Name" = "facility_name" ∧
    to_snake_case "Hospital   Overall Rating (1-5)" = "hospital_overall_rating_1_5" ∧
    to_snake_case "Código Postal" = "codigo_postal" ∧
    to_snake_case "" = "column" ∧
    to_snake_case "***" = "column" :=
  ⟨rfl, rfl, rfl, rfl, rfl⟩

/-! ## Output filename derivation (C5) -/

theorem splitSlash_ne_nil (l : List Char) : splitSlash l ≠ [] := by
  cases l with
  | nil => simp [splitSlash]
  | cons c rest =>
    unfold splitSlash
    cases splitSlash rest with
    | nil => simp
    | cons x xs =>
      by_cases hc : c = '/'
      · simp [hc]
      · simp [hc]

theorem splitSlash_append_slash (l : List Char) :
    splitSlash (l ++ ['/']) = splitSlash l ++ [[]] := by
  induction l with
  | nil => rfl
  | cons c rest ih =>
    show splitSlash (c :: (rest ++ ['/'])) = _
    unfold splitSlash
    rw [ih]
    cases e : splitSlash rest with
    | nil => exact absurd e (splitSlash_ne_nil rest)
    | cons x xs =>
      by_cases hc : c = '/'
      · simp [hc]
      · simp [hc]

theorem pathParts_append_slash (l : List Char) :
    pathParts (l ++ ['/']) = pathParts l := by
  unfold pathParts
  rw [splitSlash_append_slash, List.filter_append]
  simp

theorem takeWhile_no_query {l : List Char} (h : '?' ∉ l) :
    splitQueryL l = l := by
  unfold splitQueryL
  induction l with
  | nil => rfl
  | cons c rest ih =>
    rw [List.takeWhile_cons, if_pos (by simp; rintro rfl; exact h (by simp))]
    rw [ih (fun hc => h (by simp [hc]))]

theorem stemOfName_ne_nil {p : List Char} (h : p ≠ []) : stemOfName p ≠ [] := by
  unfold stemOfName
  cases e : lastDotIdx p with
  | none => exact h
  | some i =>
    show (if 0 < i ∧ i < p.length - 1 then List.take i p else p) ≠ []
    by_cases hi : 0 < i ∧ i < p.length - 1
    · rw [if_pos hi]
      simp only [ne_eq, List.take_eq_nil_iff]
      push_neg
      exact ⟨by omega, h⟩
    · rw [if_neg hi]
      exact h

/-- C5 counterexample: a URL ending in `/` does not yield `file__snake.csv` —
`pathlib` ignores trailing slashes, so the segment before the slash is used. -/
theorem outFileName_trailing_slash_cex :
    outFileName "https://example.gov/data/" = "data__snake.csv" ∧
    outFileName "https://example.gov/data/" ≠ "file__snake.csv" :=
  ⟨rfl, by decide⟩

/-- C5 (amended): the output filename strips the query string from the first
`?`, takes the final non-empty, non-`.` path segment — ignoring trailing
slashes — and strips its last extension; the literal `file` is used when the
URL has no such segment at all (e.g. the bare path `/`), not merely when the
URL ends in `/`. -/
theorem outFileName_derivation :
    outFileName "https://example.gov/data/facility_ratings.csv?version=2" =
      "facility_ratings__snake.csv" ∧
    (∀ url : String, '?' ∉ url.toList → outFileName (url ++ "/") = outFileName url) ∧
    (∀ url : String, pathParts (splitQueryL url.toList) = [] →
      outFileName url = "file__snake.csv") ∧
    outFileName "/" = "file__snake.csv" ∧
    (∀ url : String, ∀ p, (pathParts (splitQueryL url.toList)).getLast? = some p →
      outFileName url = (stemOfName p).asString ++ "__snake.csv") := by
  refine ⟨rfl, ?_, ?_, rfl, ?_⟩
  · intro url h
    unfold outFileName deriveStem pathStemL pathNameL
    have htl : (url ++ "/").toList = url.toList ++ ['/'] := rfl
    have hq : '?' ∉ url.toList ++ ['/'] := by
      intro hc
      rcases List.mem_append.mp hc with hc1 | hc2
      · exact h hc1
      · simp at hc2
    rw [htl, takeWhile_no_query hq, takeWhile_no_query h, pathParts_append_slash]
  · intro url h
    unfold outFileName deriveStem pathStemL pathNameL
    rw [h]
    rfl
  · intro url p h
    unfold outFileName deriveStem pathStemL pathNameL
    rw [h]
    have hp : p ∈ pathParts (splitQueryL url.toList) := List.mem_of_getLast?_eq_some h
    have hpn : p ≠ [] := by
      unfold pathParts at hp
      have := List.of_mem_filter hp
      simp only [decide_eq_true_eq] at this
      exact this.1
    simp only [Option.getD_some]
    rw [if_neg (stemOfName_ne_nil hpn)]

/-! ## Discovery and distribution selection (C8, C9, C3, C10) -/

theorem fetch_eq_filter (items : List DatasetItem) :
    fetch_hospital_datasets items = items.filter isHospitalItem := by
  induction items with
  | nil => rfl
  | cons item rest ih =>
    unfold fetch_hospital_datasets
    rw [List.filter_cons]
    by_cases h : isHospitalItem item
    · rw [if_pos h, if_pos (by simpa using h), ih]
    · rw [if_neg h, if_neg (by simpa using h), ih]

/-- C8: themed discovery selects exactly the items with some theme entry that
is a string equal to `"hospitals"` after trimming and lowercasing; items
without a theme field are excluded; the catalog order is preserved (the
result is a `filter` of the input). -/
theorem fetch_hospital_datasets_spec (items : List DatasetItem) :
    fetch_hospital_datasets items = items.filter isHospitalItem ∧
    (∀ item : DatasetItem,
      isHospitalItem item = true ↔
        ∃ ts, item.theme = some ts ∧
          ∃ t ∈ ts, ∃ s, t = ThemeVal.str s ∧ pyLower (pyStrip s) = "hospitals") ∧
    (∀ item : DatasetItem, item.theme = none → isHospitalItem item = false) := by
  refine ⟨fetch_eq_filter items, ?_, ?_⟩
  · intro item
    unfold isHospitalItem
    cases ht : item.theme with
    | none =>
      simp only [Option.getD_none, List.any_nil, Bool.false_eq_true, false_iff]
      rintro ⟨ts, hts, _⟩
      simp [ht] at hts
    | some ts =>
      simp only [Option.getD_some, List.any_eq_true]
      constructor
      · rintro ⟨t, htm, hmt⟩
        refine ⟨ts, rfl, t, htm, ?_⟩
        cases t with
        | str s => exact ⟨s, rfl, by simpa [themeMatches] using hmt⟩
        | other => simp [themeMatches] at hmt
      · rintro ⟨ts', hts', t, htm, s, rfl, hs⟩
        injection hts' with he
        subst he
        exact ⟨ThemeVal.str s, htm, by simpa [themeMatches] using hs⟩
  · intro item h
    unfold isHospitalItem
    rw [h]
    rfl

/-- C9: a Distribution Descriptor is eligible exactly when its `mediaType`,
lowercased, is `"text/csv"` and its effective URL — `downloadURL` preferred,
`accessURL` as fallback — is present and non-empty; a
`mediaType = "application/pdf"` descriptor is never eligible; a CSV
descriptor with only `accessURL` is eligible through `accessURL`. -/
theorem eligibleDist_spec :
    (∀ d : Distribution,
      eligibleDist d = true ↔
        (pyLower (pyOrStr d.mediaType "") = "text/csv" ∧
          ∃ u, urlOf d = some u ∧ u ≠ "")) ∧
    (∀ (d : Distribution) (u : String), d.downloadURL = some u → u ≠ "" →
      urlOf d = some u) ∧
    (∀ d : Distribution, d.downloadURL = none ∨ d.downloadURL = some "" →
      urlOf d = d.accessURL) ∧
    (∀ d : Distribution, d.mediaType = some "application/pdf" →
      eligibleDist d = false) ∧
    (∀ u : String, u ≠ "" →
      eligibleDist ⟨some "text/csv", none, some u⟩ = true ∧
      urlOf ⟨some "text/csv", none, some u⟩ = some u) := by
  refine ⟨?_, ?_, ?_, ?_, ?_⟩
  · intro d
    unfold eligibleDist mediaOf
    cases hu : urlOf d with
    | none => simp
    | some u =>
      by_cases he : u = ""
      · subst he
        simp
      · simp [he]
  · intro d u h1 h2
    unfold urlOf pyOr
    rw [h1]
    simp [h2]
  · intro d h
    unfold urlOf pyOr
    rcases h with h | h <;> rw [h]
    rfl
  · intro d h
    unfold eligibleDist mediaOf
    rw [h]
    simp [pyOrStr, pyLower]
    intro hc
    exact absurd hc (by decide)
  · intro u hu
    refine ⟨?_, rfl⟩
    unfold eligibleDist
    have hm : mediaOf ⟨some "text/csv", none, some u⟩ = "text/csv" := rfl
    have hu2 : urlOf ⟨some "text/csv", none, some u⟩ = some u := rfl
    rw [hm, hu2]
    simp [hu]

theorem collectDists_eq (i t m : String) (ds : List Distribution) :
    collectDists i t m ds =
      (ds.filter eligibleDist).map
        (fun d => ⟨(urlOf d).getD "", i, t, m⟩) := by
  induction ds with
  | nil => rfl
  | cons d rest ih =>
    unfold collectDists
    rw [List.filter_cons]
    by_cases h : eligibleDist d
    · rw [if_pos h, if_pos (by simpa using h), List.map_cons, ih]
    · rw [if_neg h, if_neg (by simpa using h), ih]

theorem dtd_snd (item : DatasetItem) (state : RunState) :
    (distributions_to_download item state).2 = state := by
  unfold distributions_to_download
  split <;> rfl

theorem dtd_fst_skip {item : DatasetItem} {state : RunState}
    (h : skipDataset item state = true) :
    (distributions_to_download item state).1 = [] := by
  unfold distributions_to_download
  rw [if_pos h]

theorem dtd_fst_go {item : DatasetItem} {state : RunState}
    (h : skipDataset item state = false) :
    (distributions_to_download item state).1 = eligTuples item := by
  unfold distributions_to_download
  rw [if_neg (by simp [h])]
  show collectDists (dsIdOf item) (dsTitleOf item) (modifiedOf item)
    (item.distribution.getD []) = eligTuples item
  rw [collectDists_eq]
  rfl

theorem skipDataset_iff (item : DatasetItem) (state : RunState) :
    skipDataset item state = true ↔
      ∃ rec, state.datasets.lookup (dsIdOf item) = some rec ∧
        rec.modified = modifiedOf item := by
  unfold skipDataset
  cases h : state.datasets.lookup (dsIdOf item) with
  | none => simp
  | some rec => simp

/-- C3: distribution selection returns `[]` when the stored record's
`modified` equals the item's (stripped) `modified` — empty strings included —
and otherwise returns one work tuple per eligible CSV descriptor in original
order; when the item has at least one eligible descriptor, the result is
empty exactly in the unchanged-skip case. -/
theorem distributions_selection_spec (item : DatasetItem) (state : RunState) :
    (skipDataset item state = true →
      (distributions_to_download item state).1 = []) ∧
    (skipDataset item state = false →
      (distributions_to_download item state).1 =
        ((item.distribution.getD []).filter eligibleDist).map
          (fun d => ⟨(urlOf d).getD "", dsIdOf item, dsTitleOf item, modifiedOf item⟩)) ∧
    (skipDataset item state = true ↔
      ∃ rec, state.datasets.lookup (dsIdOf item) = some rec ∧
        rec.modified = modifiedOf item) ∧
    (eligTuples item ≠ [] →
      ((distributions_to_download item state).1 = [] ↔
        skipDataset item state = true)) := by
  refine ⟨fun h => dtd_fst_skip h, ?_, skipDataset_iff item state, ?_⟩
  · intro h
    rw [dtd_fst_go h]
    rfl
  · intro hne
    constructor
    · intro h
      by_contra hsk
      rw [dtd_fst_go (by simpa using hsk)] at h
      exact hne h
    · exact dtd_fst_skip

/-- C10: `distributions_to_download` never mutates the Run-State it is given
(the state component is returned exactly as received in both branches), and
the `modified` value it compares and embeds is the catalog value with
leading/trailing whitespace stripped. -/
theorem distributions_to_download_frame (item : DatasetItem) (state : RunState) :
    (distributions_to_download item state).2 = state ∧
    (∀ t ∈ (distributions_to_download item state).1,
      t.modified = pyStrip (pyOrStr item.modified "") ∧ t.dsId = dsIdOf item) ∧
    (∀ rec, state.datasets.lookup (dsIdOf item) = some rec →
      rec.modified = pyStrip (pyOrStr item.modified "") →
      (distributions_to_download item state).1 = []) := by
  refine ⟨dtd_snd item state, ?_, ?_⟩
  · intro t ht
    by_cases h : skipDataset item state
    · rw [dtd_fst_skip h] at ht
      simp at ht
    · rw [dtd_fst_go (by simpa using h)] at ht
      unfold eligTuples at ht
      obtain ⟨d, _, rfl⟩ := List.mem_map.mp ht
      exact ⟨rfl, rfl⟩
  · intro rec h1 h2
    refine dtd_fst_skip ?_
    rw [skipDataset_iff]
    exact ⟨rec, h1, h2⟩

/-! ## Orchestrator scheduling (C1) -/

theorem lookup_dictInsert_self (k : String) (v : DsRecord) :
    ∀ d : List (String × DsRecord), (dictInsert k v d).lookup k = some v := by
  intro d
  induction d with
  | nil => simp [dictInsert]
  | cons p rest ih =>
    obtain ⟨k', v'⟩ := p
    unfold dictInsert
    by_cases h : k' = k
    · rw [if_pos h]
      simp [List.lookup]
    · rw [if_neg h]
      have hb : (k == k') = false := by
        simp only [beq_eq_false_iff_ne, ne_eq]
        exact fun hc => h hc.symm
      simp only [List.lookup, hb]
      exact ih

theorem scheduleTuples_count (clock : Nat → String) (tuples : List WorkTuple) :
    ∀ (s : RunState) (k : Nat),
      (scheduleTuples clock tuples s k).2 = k + tuples.length := by
  induction tuples with
  | nil => intro s k; simp [scheduleTuples]
  | cons t rest ih =>
    intro s k
    unfold scheduleTuples
    rw [ih]
    simp only [List.length_cons]
    omega

theorem scheduleTuples_lookup (clock : Nat → String) (i m : String) :
    ∀ (tuples : List WorkTuple) (s : RunState) (k : Nat),
      tuples ≠ [] → (∀ t ∈ tuples, t.dsId = i ∧ t.modified = m) →
      (scheduleTuples clock tuples s k).1.datasets.lookup i =
        some ⟨m, clock (k + tuples.length - 1)⟩ := by
  intro tuples
  induction tuples with
  | nil => intro s k h _; exact absurd rfl h
  | cons t rest ih =>
    intro s k _ hall
    unfold scheduleTuples
    cases e : rest with
    | nil =>
      simp only [scheduleTuples]
      obtain ⟨h1, h2⟩ := hall t (by simp)
      rw [show (⟨t.modified, clock k⟩ : DsRecord) =
        (⟨m, clock (k + [t].length - 1)⟩ : DsRecord) from by
          rw [h2]; simp]
      rw [← h1]
      exact lookup_dictInsert_self _ _ _
    | cons t2 rest2 =>
      rw [← e]
      rw [show k + (t :: rest).length - 1 = (k + 1) + rest.length - 1 from by
        simp only [List.length_cons]; omega]
      exact ih _ _ (by rw [e]; simp) (fun t' ht' => hall t' (by simp [ht']))

theorem mainFinalState_eq (clock : Nat → String) (items : List DatasetItem)
    (s0 : RunState) (o : Nat → Option String) :
    mainFinalState clock items s0 o =
      { (scheduleItems clock items s0 0).1 with
        lastRun := some (clock (scheduleItems clock items s0 0).2.2) } := by
  unfold mainFinalState
  rcases e : scheduleItems clock items s0 0 with ⟨s, tasks, k⟩
  rfl

/-- C1: for every work tuple selected, the orchestrator's scheduling loop
updates the in-memory Run-State record for that dataset id to the new
(stripped) `modified` value with a scheduling-time clock stamp — conjunct 4
shows the record is in place already when the item's tuples have just been
scheduled — and the persisted state is the scheduled state plus a fresh
`last_run`, identical for any assignment of task outcomes (the awaited task
results are discarded). -/
theorem main_state_update_at_scheduling (clock : Nat → String)
    (items : List DatasetItem) (s0 : RunState) (o1 o2 : Nat → Option String) :
    mainFinalState clock items s0 o1 = mainFinalState clock items s0 o2 ∧
    (mainFinalState clock items s0 o1).datasets =
      (scheduleItems clock items s0 0).1.datasets ∧
    (mainFinalState clock items s0 o1).lastRun =
      some (clock (scheduleItems clock items s0 0).2.2) ∧
    (∀ (item : DatasetItem) (s : RunState) (k : Nat),
      (distributions_to_download item s).1 ≠ [] →
      (scheduleTuples clock (distributions_to_download item s).1
          (distributions_to_download item s).2 k).1.datasets.lookup (dsIdOf item) =
        some ⟨modifiedOf item, clock (k + (distributions_to_download item s).1.length - 1)⟩) := by
  refine ⟨?_, ?_, ?_, ?_⟩
  · rw [mainFinalState_eq clock items s0 o1, mainFinalState_eq clock items s0 o2]
  · rw [mainFinalState_eq]
  · rw [mainFinalState_eq]
  · intro item s k hne
    refine scheduleTuples_lookup clock (dsIdOf item) (modifiedOf item) _ _ _ hne ?_
    intro t ht
    by_cases hsk : skipDataset item s
    · rw [dtd_fst_skip hsk] at ht
      simp at ht
    · rw [dtd_fst_go (by simpa using hsk)] at ht
      unfold eligTuples at ht
      obtain ⟨d, _, rfl⟩ := List.mem_map.mp ht
      exact ⟨rfl, rfl⟩

/-! ## Distribution Processor error handling (C2) -/

/-- C2 counterexample: with a successful download but a failing
`out_dir.mkdir` (step 4, line 170 — outside both `try` blocks), the
operation propagates the failure to its caller instead of logging it and
returning the absent result. -/
theorem process_distribution_mkdir_cex :
    process_distribution ⟨.ok [65], .error "mkdir failed", .ok ()⟩
      "https://x/y.csv" "DS1" "T" "out" = .error "mkdir failed" := rfl

/-- C2 (amended): download failures (step 2) and failures inside the
parse-and-write `try` block (step 6) are caught, logged with the URL and
dataset id, and turned into the absent result; decoding and filename
derivation are total; but a failure of the output-directory creation
(step 4) is not caught and propagates — it is the only way the operation
raises. -/
theorem process_distribution_error_handling (env : ProcEnv)
    (url dsId dsTitle outDir : String) :
    (∀ e, process_distribution env url dsId dsTitle outDir = .error e →
      env.mkdirResult = .error e ∧ ∃ raw, env.download = .ok raw) ∧
    (∀ e, env.download = .error e →
      process_distribution env url dsId dsTitle outDir =
        .ok ([.errDownload url dsId e], none)) ∧
    (∀ raw e, env.download = .ok raw → env.mkdirResult = .ok () →
      env.writeResult = .error e →
      process_distribution env url dsId dsTitle outDir =
        .ok ([.errProcessing url dsId e], none)) ∧
    (env.mkdirResult = .ok () →
      ∀ e, process_distribution env url dsId dsTitle outDir ≠ .error e) := by
  obtain ⟨dl, mk, wr⟩ := env
  refine ⟨?_, ?_, ?_, ?_⟩
  · intro e h
    cases dl with
    | error e' => simp [process_distribution] at h
    | ok raw =>
      refine ⟨?_, raw, rfl⟩
      cases mk with
      | error e' =>
        simp only [process_distribution] at h
        cases wr <;> simp_all
      | ok u =>
        cases wr <;> simp [process_distribution] at h
  · intro e h
    cases dl with
    | error e' =>
      injection h with he
      subst he
      rfl
    | ok raw => simp at h
  · intro raw e h1 h2 h3
    cases dl with
    | error e' => simp at h1
    | ok raw' =>
      injection h1 with he
      subst he
      cases mk with
      | error e' => simp at h2
      | ok u =>
        cases wr with
        | error e' =>
          injection h3 with he3
          subst he3
          rfl
        | ok u' => simp at h3
  · intro hmk e
    cases dl with
    | error e' => simp [process_distribution]
    | ok raw =>
      cases mk with
      | error e' => simp at hmk
      | ok u =>
        cases wr with
        | error e' => simp [process_distribution]
        | ok u' => simp [process_distribution]

/-! ## CSV round trip (C4)

Every field the reader can produce is free of line-boundary characters
(`splitlines` removes them all), the writer quotes `,`, `"`, `\r`, `\n`, and
therefore re-reading the written file recovers exactly the written rows. -/

theorem mem_escQuotes {c : Char} {f : List Char} (h : c ∈ escQuotes f) :
    c ∈ f ∨ c = '"' := by
  unfold escQuotes at h
  obtain ⟨a, ha, hc⟩ := List.mem_flatMap.mp h
  by_cases hq : a = '"'
  · subst hq
    simp at hc
    exact .inr hc
  · rw [if_neg hq] at hc
    simp at hc
    subst hc
    exact .inl ha

theorem mem_writeField {c : Char} {f : List Char} (h : c ∈ writeField f) :
    c ∈ f ∨ c = '"' := by
  unfold writeField at h
  by_cases hq : needsQuote f
  · rw [if_pos hq] at h
    rcases List.mem_cons.mp h with rfl | h2
    · exact .inr rfl
    · rcases List.mem_append.mp h2 with h3 | h3
      · exact mem_escQuotes h3
      · simp at h3
        exact .inr h3
  · rw [if_neg hq] at h
    exact .inl h

theorem mem_joinComma {c : Char} :
    ∀ {fs : List (List Char)}, c ∈ joinComma fs → c = ',' ∨ ∃ f ∈ fs, c ∈ f := by
  intro fs h
  induction fs with
  | nil => simp [joinComma] at h
  | cons f rest ih =>
    unfold joinComma at h
    cases rest with
    | nil =>
      simp only at h
      exact .inr ⟨f, by simp, h⟩
    | cons g rest2 =>
      simp only at h
      rcases List.mem_append.mp h with h2 | h2
      · exact .inr ⟨f, by simp, h2⟩
      · rcases List.mem_cons.mp h2 with rfl | h3
        · exact .inl rfl
        · rcases ih h3 with h4 | ⟨f', hf', hc'⟩
          · exact .inl h4
          · exact .inr ⟨f', by simp [hf'], hc'⟩

theorem rowLine_clean {r : List (List Char)} (h : ∀ f ∈ r, cleanField f = true) :
    ∀ c ∈ rowLine r, isLineBoundary c = false := by
  intro c hc
  unfold rowLine at hc
  by_cases he : r = [[]]
  · rw [if_pos he] at hc
    simp at hc
    subst hc
    decide
  · rw [if_neg he] at hc
    rcases mem_joinComma hc with rfl | ⟨wf, hwf, hcw⟩
    · decide
    · obtain ⟨f, hf, rfl⟩ := List.mem_map.mp hwf
      rcases mem_writeField hcw with h2 | rfl
      · have := h f hf
        unfold cleanField at this
        have h3 := List.all_eq_true.mp this c h2
        simpa using h3
      · decide

theorem splitGo_cons_cr (t cur : List Char) (flag : Bool) :
    splitGo ('\r' :: t) cur flag = cur :: splitGo t [] true := rfl

theorem splitGo_cons_nl_afterCR (t cur : List Char) :
    splitGo ('\n' :: t) cur true = splitGo t cur false := rfl

theorem splitGo_cons_other {c : Char} (h : isLineBoundary c = false)
    (t cur : List Char) (flag : Bool) :
    splitGo (c :: t) cur flag = splitGo t (cur ++ [c]) false := by
  have hn : c ≠ '\n' := fun hc => by subst hc; simp [isLineBoundary] at h
  have hr : c ≠ '\r' := fun hc => by subst hc; simp [isLineBoundary] at h
  conv_lhs => unfold splitGo
  rw [if_neg hn, if_neg hr, if_neg (by simp [h])]

theorem splitGo_crlf {line : List Char}
    (h : ∀ c ∈ line, isLineBoundary c = false) :
    ∀ (cur rest : List Char),
      splitGo (line ++ '\r' :: '\n' :: rest) cur false =
        (cur ++ line) :: splitGo rest [] false := by
  induction line with
  | nil =>
    intro cur rest
    show splitGo ('\r' :: '\n' :: rest) cur false = _
    rw [splitGo_cons_cr, splitGo_cons_nl_afterCR]
    simp
  | cons c line' ih =>
    intro cur rest
    have hc := h c (by simp)
    show splitGo (c :: (line' ++ '\r' :: '\n' :: rest)) cur false = _
    rw [splitGo_cons_other hc]
    rw [ih (fun d hd => h d (by simp [hd])) (cur ++ [c]) rest]
    simp

theorem writeRows_cons (r : List (List Char)) (rest : List (List (List Char))) :
    writeRows (r :: rest) = rowLine r ++ '\r' :: '\n' :: writeRows rest := by
  unfold writeRows writeRow
  simp [List.append_assoc]

theorem splitlines_writeRows {rows : List (List (List Char))}
    (h : ∀ r ∈ rows, ∀ f ∈ r, cleanField f = true) :
    splitlinesL (writeRows rows) = rows.map rowLine := by
  induction rows with
  | nil => rfl
  | cons r rest ih =>
    rw [writeRows_cons]
    unfold splitlinesL
    rw [splitGo_crlf (rowLine_clean (h r (by simp))) [] (writeRows rest)]
    rw [List.map_cons]
    congr 1
    exact ih (fun r' hr' => h r' (by simp [hr']))

theorem csvChar_startF_quote (fs : List (List Char)) (cur : List Char) :
    csvChar ⟨fs, cur, .startF⟩ '"' = ⟨fs, cur, .inQ⟩ := rfl

theorem escQuotes_fold (f : List Char) :
    ∀ (fs : List (List Char)) (cur : List Char),
      (escQuotes f).foldl csvChar ⟨fs, cur, .inQ⟩ = ⟨fs, cur ++ f, .inQ⟩ := by
  induction f with
  | nil => intro fs cur; simp [escQuotes]
  | cons c f' ih =>
    intro fs cur
    by_cases hq : c = '"'
    · subst hq
      have he : escQuotes ('"' :: f') = '"' :: '"' :: escQuotes f' := rfl
      rw [he]
      show (escQuotes f').foldl csvChar
        (csvChar (csvChar ⟨fs, cur, .inQ⟩ '"') '"') = _
      have h1 : csvChar (⟨fs, cur, .inQ⟩ : CsvRec) '"' = ⟨fs, cur, .quoteQ⟩ := rfl
      have h2 : csvChar (⟨fs, cur, .quoteQ⟩ : CsvRec) '"' = ⟨fs, cur ++ ['"'], .inQ⟩ := rfl
      rw [h1, h2, ih]
      simp
    · have he : escQuotes (c :: f') = c :: escQuotes f' := by
        unfold escQuotes
        rw [List.flatMap_cons, if_neg hq]
        rfl
      rw [he]
      show (escQuotes f').foldl csvChar (csvChar ⟨fs, cur, .inQ⟩ c) = _
      have h1 : csvChar (⟨fs, cur, .inQ⟩ : CsvRec) c = ⟨fs, cur ++ [c], .inQ⟩ := by
        unfold csvChar
        simp only []
        rw [if_neg hq]
      rw [h1, ih]
      simp

theorem inF_fold {f : List Char} (hnc : ',' ∉ f) :
    ∀ (fs : List (List Char)) (cur : List Char),
      f.foldl csvChar ⟨fs, cur, .inF⟩ = ⟨fs, cur ++ f, .inF⟩ := by
  induction f with
  | nil => intro fs cur; simp
  | cons c f' ih =>
    intro fs cur
    have hc : c ≠ ',' := fun hc => hnc (by simp [hc])
    show f'.foldl csvChar (csvChar ⟨fs, cur, .inF⟩ c) = _
    have h1 : csvChar (⟨fs, cur, .inF⟩ : CsvRec) c = ⟨fs, cur ++ [c], .inF⟩ := by
      unfold csvChar
      simp only []
      rw [if_neg hc]
    rw [h1, ih (fun hm => hnc (by simp [hm]))]
    simp

theorem writeField_fold_quoted {f : List Char} (hq : needsQuote f = true)
    (fs : List (List Char)) :
    (writeField f).foldl csvChar ⟨fs, [], .startF⟩ = ⟨fs, f, .quoteQ⟩ := by
  unfold writeField
  rw [if_pos hq]
  show (escQuotes f ++ ['"']).foldl csvChar (csvChar ⟨fs, [], .startF⟩ '"') = _
  rw [csvChar_startF_quote, List.foldl_append, escQuotes_fold]
  rfl

theorem writeField_fold_plain {f : List Char} (hq : needsQuote f = false)
    (hne : f ≠ []) (fs : List (List Char)) :
    (writeField f).foldl csvChar ⟨fs, [], .startF⟩ = ⟨fs, f, .inF⟩ := by
  unfold writeField
  rw [if_neg (by simp [hq])]
  cases f with
  | nil => exact absurd rfl hne
  | cons c f' =>
    have hnb : ∀ d ∈ c :: f', d ≠ ',' ∧ d ≠ '"' := by
      intro d hd
      have h2 : ¬(d = ',' || d = '"' || d = '\r' || d = '\n') = true := by
        intro hor
        have h3 : needsQuote (c :: f') = true := by
          unfold needsQuote
          exact List.any_eq_true.mpr ⟨d, hd, hor⟩
        rw [hq] at h3
        exact absurd h3 (by simp)
      constructor
      · intro hc; subst hc; simp at h2
      · intro hc; subst hc; simp at h2
    obtain ⟨hc1, hc2⟩ := hnb c (by simp)
    show f'.foldl csvChar (csvChar ⟨fs, [], .startF⟩ c) = _
    have h1 : csvChar (⟨fs, [], .startF⟩ : CsvRec) c = ⟨fs, [c], .inF⟩ := by
      unfold csvChar
      simp only []
      rw [if_neg hc2, if_neg hc1]
      simp
    rw [h1, inF_fold (fun hm => (hnb ',' (by simp [hm])).1 rfl)]
    rfl

theorem csvChar_comma_after_field {st : CsvRec} (h : st.q ≠ .inQ) :
    csvChar st ',' = ⟨st.fields ++ [st.cur], [], .startF⟩ := by
  obtain ⟨fs, cur, q⟩ := st
  cases q with
  | startF => rfl
  | inF => rfl
  | inQ => exact absurd rfl h
  | quoteQ => rfl

theorem joinComma_cons_ne {xs : List (List Char)} (x : List Char)
    (h : xs ≠ []) : joinComma (x :: xs) = x ++ ',' :: joinComma xs := by
  cases xs with
  | nil => exact absurd rfl h
  | cons y ys => rfl

theorem writeField_fold_cases (f : List Char) (fs : List (List Char)) :
    ∃ st1 : CsvRec,
      (writeField f).foldl csvChar ⟨fs, [], .startF⟩ = st1 ∧
      st1.fields = fs ∧ st1.cur = f ∧ st1.q ≠ .inQ := by
  by_cases hq : needsQuote f
  · exact ⟨⟨fs, f, .quoteQ⟩, writeField_fold_quoted hq fs, rfl, rfl, by simp⟩
  · by_cases hne : f = []
    · subst hne
      refine ⟨⟨fs, [], .startF⟩, ?_, rfl, rfl, by simp⟩
      unfold writeField
      rw [if_neg (by simp [hq])]
      rfl
    · exact ⟨⟨fs, f, .inF⟩,
        writeField_fold_plain (by simpa using hq) hne fs, rfl, rfl, by simp⟩

theorem rowFold :
    ∀ r : List (List Char), r ≠ [] → ∀ fs : List (List Char),
      ∃ st : CsvRec,
        (joinComma (r.map writeField)).foldl csvChar ⟨fs, [], .startF⟩ = st ∧
        st.fields ++ [st.cur] = fs ++ r ∧ st.q ≠ .inQ := by
  intro r
  induction r with
  | nil => intro hr; exact absurd rfl hr
  | cons f r' ih =>
    intro _ fs
    by_cases hr0 : r' = []
    · subst hr0
      have he : joinComma ([f].map writeField) = writeField f := rfl
      rw [he]
      obtain ⟨st1, hst1, hf1, hc1, hq1⟩ := writeField_fold_cases f fs
      refine ⟨st1, hst1, ?_, hq1⟩
      rw [hf1, hc1]
    · have he : joinComma ((f :: r').map writeField) =
          writeField f ++ ',' :: joinComma (r'.map writeField) := by
        rw [List.map_cons]
        exact joinComma_cons_ne _ (by simp [hr0])
      rw [he, List.foldl_append]
      obtain ⟨st1, hst1, hf1, hc1, hq1⟩ := writeField_fold_cases f fs
      rw [hst1, List.foldl_cons]
      have hcomma : csvChar st1 ',' = ⟨fs ++ [f], [], .startF⟩ := by
        rw [csvChar_comma_after_field hq1, hf1, hc1]
      rw [hcomma]
      obtain ⟨st, hfold, heq, hq⟩ := ih hr0 (fs ++ [f])
      refine ⟨st, hfold, ?_, hq⟩
      rw [heq]
      simp

theorem csvEndLine_not_inQ {st : CsvRec} (h : st.q ≠ .inQ) :
    csvEndLine st = (some (st.fields ++ [st.cur]), none) := by
  obtain ⟨fs, cur, q⟩ := st
  cases q with
  | startF => rfl
  | inF => rfl
  | inQ => exact absurd rfl h
  | quoteQ => rfl

theorem parse_rowLine {r : List (List Char)} (hr : r ≠ []) :
    csvEndLine ((rowLine r).foldl csvChar csvFresh) = (some r, none) := by
  by_cases hs : r = [[]]
  · subst hs
    rfl
  · have he : rowLine r = joinComma (r.map writeField) := by
      unfold rowLine
      rw [if_neg hs]
    rw [he]
    obtain ⟨st, hfold, heq, hq⟩ := rowFold r hr []
    show csvEndLine ((joinComma (r.map writeField)).foldl csvChar ⟨[], [], .startF⟩) =
      (some r, none)
    rw [hfold, csvEndLine_not_inQ hq, heq]
    rfl

theorem rowLine_ne_nil {r : List (List Char)} (hr : r ≠ []) :
    rowLine r ≠ [] := by
  unfold rowLine
  by_cases hs : r = [[]]
  · rw [if_pos hs]
    simp
  · rw [if_neg hs]
    cases r with
    | nil => exact absurd rfl hr
    | cons f r' =>
      by_cases hr0 : r' = []
      · subst hr0
        show writeField f ≠ []
        have hf : f ≠ [] := by
          intro hc
          exact hs (by rw [hc])
        unfold writeField
        by_cases hq : needsQuote f
        · rw [if_pos hq]
          simp
        · rw [if_neg (by simp [hq])]
          exact hf
      · rw [List.map_cons, joinComma_cons_ne _ (by simp [hr0])]
        simp

theorem parse_written :
    ∀ rows : List (List (List Char)),
      csvReadLines (rows.map rowLine) none = rows := by
  intro rows
  induction rows with
  | nil => rfl
  | cons r rest ih =>
    rw [List.map_cons]
    by_cases hr : r = []
    · subst hr
      show csvReadLines ([] :: rest.map rowLine) none = [] :: rest
      unfold csvReadLines
      rw [if_pos (by exact ⟨rfl, rfl⟩)]
      rw [ih]
    · show csvReadLines (rowLine r :: rest.map rowLine) none = r :: rest
      unfold csvReadLines
      rw [if_neg (by rintro ⟨_, hc⟩; exact rowLine_ne_nil hr hc)]
      simp only [Option.getD_none]
      rw [parse_rowLine hr]
      show r :: csvReadLines (rest.map rowLine) none = r :: rest
      rw [ih]

theorem splitGo_clean :
    ∀ (t cur : List Char) (flag : Bool),
      (∀ c ∈ cur, isLineBoundary c = false) →
      ∀ line ∈ splitGo t cur flag, ∀ c ∈ line, isLineBoundary c = false := by
  intro t
  induction t with
  | nil =>
    intro cur flag hcur line hline
    unfold splitGo at hline
    by_cases hc : cur = []
    · rw [if_pos hc] at hline
      simp at hline
    · rw [if_neg hc] at hline
      simp at hline
      subst hline
      exact hcur
  | cons c t' ih =>
    intro cur flag hcur line hline
    unfold splitGo at hline
    by_cases h1 : c = '\n'
    · rw [if_pos h1] at hline
      by_cases h2 : flag = true
      · rw [if_pos h2] at hline
        exact ih cur false hcur line hline
      · rw [if_neg h2] at hline
        rcases List.mem_cons.mp hline with rfl | h3
        · exact hcur
        · exact ih [] false (by simp) line h3
    · rw [if_neg h1] at hline
      by_cases h2 : c = '\r'
      · rw [if_pos h2] at hline
        rcases List.mem_cons.mp hline with rfl | h3
        · exact hcur
        · exact ih [] true (by simp) line h3
      · rw [if_neg h2] at hline
        by_cases h3 : isLineBoundary c = true
        · rw [if_pos h3] at hline
          rcases List.mem_cons.mp hline with rfl | h4
          · exact hcur
          · exact ih [] false (by simp) line h4
        · rw [if_neg h3] at hline
          refine ih (cur ++ [c]) false ?_ line hline
          intro d hd
          rcases List.mem_append.mp hd with h5 | h5
          · exact hcur d h5
          · simp at h5
            subst h5
            simpa using h3

theorem csvChar_clean {st : CsvRec} {c : Char}
    (hf : ∀ f ∈ st.fields, cleanField f = true) (hc : cleanField st.cur = true)
    (hch : isLineBoundary c = false) :
    (∀ f ∈ (csvChar st c).fields, cleanField f = true) ∧
      cleanField (csvChar st c).cur = true := by
  have hfc : ∀ f ∈ st.fields ++ [st.cur], cleanField f = true := by
    intro f hm
    rcases List.mem_append.mp hm with h | h
    · exact hf f h
    · simp at h
      subst h
      exact hc
  have hcc : cleanField (st.cur ++ [c]) = true := by
    unfold cleanField at hc ⊢
    rw [List.all_append, hc]
    simp [hch]
  obtain ⟨fs, cur, q⟩ := st
  cases q <;> unfold csvChar <;> simp only [] <;> split_ifs <;>
    refine ⟨?_, ?_⟩ <;>
    first
      | exact hf
      | exact hc
      | exact hcc
      | exact hfc
      | rfl

theorem foldl_csvChar_clean :
    ∀ (line : List Char), (∀ c ∈ line, isLineBoundary c = false) →
      ∀ st : CsvRec, (∀ f ∈ st.fields, cleanField f = true) →
        cleanField st.cur = true →
        (∀ f ∈ (line.foldl csvChar st).fields, cleanField f = true) ∧
          cleanField (line.foldl csvChar st).cur = true := by
  intro line
  induction line with
  | nil => intro _ st hf hc; exact ⟨hf, hc⟩
  | cons c line' ih =>
    intro hl st hf hc
    obtain ⟨hf2, hc2⟩ := csvChar_clean hf hc (hl c (by simp))
    exact ih (fun d hd => hl d (by simp [hd])) (csvChar st c) hf2 hc2

theorem csvEndLine_inQ {st : CsvRec} (h : st.q = .inQ) :
    csvEndLine st = (none, some st) := by
  obtain ⟨fs, cur, q⟩ := st
  simp only [] at h
  subst h
  rfl

theorem csvReadLines_clean :
    ∀ (lines : List (List Char)) (carry : Option CsvRec),
      (∀ line ∈ lines, ∀ c ∈ line, isLineBoundary c = false) →
      (∀ r, carry = some r → (∀ f ∈ r.fields, cleanField f = true) ∧
        cleanField r.cur = true) →
      ∀ row ∈ csvReadLines lines carry, ∀ f ∈ row, cleanField f = true := by
  intro lines
  induction lines with
  | nil =>
    intro carry _ hcarry row hrow
    cases carry with
    | none => simp [csvReadLines] at hrow
    | some r =>
      unfold csvReadLines at hrow
      simp at hrow
      subst hrow
      obtain ⟨h1, h2⟩ := hcarry r rfl
      intro f hf
      rcases List.mem_append.mp hf with h | h
      · exact h1 f h
      · simp at h
        subst h
        exact h2
  | cons line rest ih =>
    intro carry hlines hcarry row hrow
    unfold csvReadLines at hrow
    by_cases hb : carry = none ∧ line = []
    · rw [if_pos hb] at hrow
      rcases List.mem_cons.mp hrow with rfl | h2
      · simp
      · exact ih none (fun l hl => hlines l (by simp [hl])) (by simp) row h2
    · rw [if_neg hb] at hrow
      simp only [] at hrow
      have hst : (∀ f ∈ (carry.getD csvFresh).fields, cleanField f = true) ∧
          cleanField (carry.getD csvFresh).cur = true := by
        cases carry with
        | none => exact ⟨by simp [csvFresh], by simp [csvFresh, cleanField]⟩
        | some r => exact hcarry r rfl
      have hr1 := foldl_csvChar_clean line (hlines line (by simp))
        (carry.getD csvFresh) hst.1 hst.2
      by_cases hq : (line.foldl csvChar (carry.getD csvFresh)).q = .inQ
      · rw [csvEndLine_inQ hq] at hrow
        exact ih _ (fun l hl => hlines l (by simp [hl]))
          (fun r hr => by
            injection hr with hr2
            rw [← hr2]
            exact hr1) row hrow
      · rw [csvEndLine_not_inQ hq] at hrow
        rcases List.mem_cons.mp hrow with rfl | h2
        · intro f hf
          rcases List.mem_append.mp hf with h | h
          · exact hr1.1 f h
          · simp at h
            subst h
            exact hr1.2
        · exact ih none (fun l hl => hlines l (by simp [hl])) (by simp) row h2

theorem csvParseL_clean (t : List Char) :
    ∀ row ∈ csvParseL t, ∀ f ∈ row, cleanField f = true := by
  unfold csvParseL splitlinesL
  exact csvReadLines_clean _ none (splitGo_clean t [] false (by simp)) (by simp)

theorem snake_not_boundary {c : Char} (h : isSnakeChar c = true) :
    isLineBoundary c = false := by
  cases hb : isLineBoundary c
  · rfl
  · exfalso
    have hs2 : (97 ≤ c.toNat ∧ c.toNat ≤ 122) ∨ (48 ≤ c.toNat ∧ c.toNat ≤ 57) ∨
        c.toNat = 95 := by
      simp only [isSnakeChar, Bool.or_eq_true, Bool.and_eq_true, decide_eq_true_eq] at h
      rcases h with (h2 | h2) | rfl
      · exact .inl h2
      · exact .inr (.inl h2)
      · exact .inr (.inr (by decide))
    have hb2 : c.toNat = 10 ∨ c.toNat = 13 ∨ c.toNat = 0x0b ∨ c.toNat = 0x0c ∨
        c.toNat = 0x1c ∨ c.toNat = 0x1d ∨ c.toNat = 0x1e ∨ c.toNat = 0x85 ∨
        c.toNat = 0x2028 ∨ c.toNat = 0x2029 := by
      simp only [isLineBoundary, Bool.or_eq_true, decide_eq_true_eq] at hb
      rcases hb with (((((((((rfl | rfl) | h2) | h2) | h2) | h2) | h2) | h2) | h2) | h2)
      · exact .inl (by decide)
      · exact .inr (.inl (by decide))
      · omega
      · omega
      · omega
      · omega
      · omega
      · omega
      · omega
      · omega
    omega

theorem snakeL_cleanField (f : List Char) : cleanField (snakeL f) = true := by
  obtain ⟨hs, _, _, _⟩ := snakeL_shape f
  unfold cleanField
  rw [List.all_eq_true]
  intro c hc
  simp only [Bool.not_eq_true']
  exact snake_not_boundary (hs c hc)

theorem normalizeRows_clean {rows : List (List (List Char))}
    (h : ∀ r ∈ rows, ∀ f ∈ r, cleanField f = true) :
    ∀ r ∈ normalizeRows rows, ∀ f ∈ r, cleanField f = true := by
  cases rows with
  | nil => simp [normalizeRows]
  | cons hd tl =>
    intro r hr f hf
    unfold normalizeRows at hr
    rcases List.mem_cons.mp hr with rfl | h2
    · obtain ⟨f0, _, rfl⟩ := List.mem_map.mp hf
      exact snakeL_cleanField f0
    · exact h r (by simp [h2]) f hf

/-- C4: the Distribution Processor parses the decoded text with the CSV
reader over `splitlines` (standard comma/double-quote rules, quoted fields
may span line boundaries) and writes, with the CSV writer's minimal quoting
and explicit `\r\n` terminators, the first parsed row with the Header
Normalizer applied to each field in order and every later parsed row
unchanged: re-reading the written file yields exactly the normalized header
followed by the original data rows (so quoted comma-containing fields
round-trip value-unchanged), as the concrete row-fidelity example shows. -/
theorem process_csv_row_semantics (text : String) :
    processCsv text =
      (writeRows (normalizeRows (csvParseL text.toList))).asString ∧
    csvParseL ((processCsv text).toList) = normalizeRows (csvParseL text.toList) ∧
    processCsv "Name,Score\nA,\"1,2\"\nB,3" = "name,score\r\nA,\"1,2\"\r\nB,3\r\n" := by
  refine ⟨rfl, ?_, rfl⟩
  show csvParseL (processCsvL text.toList) = _
  unfold processCsvL
  have hclean : ∀ r ∈ normalizeRows (csvParseL text.toList), ∀ f ∈ r,
      cleanField f = true :=
    normalizeRows_clean (csvParseL_clean text.toList)
  show csvReadLines (splitlinesL (writeRows (normalizeRows (csvParseL text.toList))))
      none = _
  rw [splitlines_writeRows hclean, parse_written]

/-! ## Witnesses: the claim theorems evaluated at concrete inputs -/

theorem main_state_update_witness :
    (scheduleTuples (fun _ => "2024-06-01T00:00:00+00:00")
      (distributions_to_download
        ⟨some "DS1", none, some "T", some "2023-02-01", none,
          some [⟨some "text/csv", some "http://x/a.csv", none⟩]⟩
        ⟨none, []⟩).1
      (distributions_to_download
        ⟨some "DS1", none, some "T", some "2023-02-01", none,
          some [⟨some "text/csv", some "http://x/a.csv", none⟩]⟩
        ⟨none, []⟩).2 0).1.datasets.lookup "DS1" =
      some ⟨"2023-02-01", "2024-06-01T00:00:00+00:00"⟩ :=
  (main_state_update_at_scheduling (fun _ => "2024-06-01T00:00:00+00:00") []
    ⟨none, []⟩ (fun _ => none) (fun _ => some "p")).2.2.2
    ⟨some "DS1", none, some "T", some "2023-02-01", none,
      some [⟨some "text/csv", some "http://x/a.csv", none⟩]⟩
    ⟨none, []⟩ 0 (by decide)

theorem process_distribution_error_handling_witness :
    process_distribution ⟨.error "timeout", .ok (), .ok ()⟩
      "https://x/y.csv" "DS1" "T" "out" =
      .ok ([.errDownload "https://x/y.csv" "DS1" "timeout"], none) :=
  (process_distribution_error_handling ⟨.error "timeout", .ok (), .ok ()⟩
    "https://x/y.csv" "DS1" "T" "out").2.1 "timeout" rfl

theorem distributions_selection_witness :
    (distributions_to_download
      ⟨some "DS1", none, some "T", some "2023-01-01", none,
        some [⟨some "text/csv", some "http://x/a.csv", none⟩]⟩
      ⟨none, [("DS1", ⟨"2023-01-01", "2023-01-02T00:00:00+00:00"⟩)]⟩).1 = [] :=
  (distributions_selection_spec
    ⟨some "DS1", none, some "T", some "2023-01-01", none,
      some [⟨some "text/csv", some "http://x/a.csv", none⟩]⟩
    ⟨none, [("DS1", ⟨"2023-01-01", "2023-01-02T00:00:00+00:00"⟩)]⟩).1 (by decide)

theorem fetch_hospital_datasets_witness :
    fetch_hospital_datasets
      [⟨some "A", none, none, none, some [.str "Hospitals"], none⟩,
       ⟨some "B", none, none, none, some [.str "Nursing Homes"], none⟩,
       ⟨some "C", none, none, none, none, none⟩,
       ⟨some "D", none, none, none, some [.str "hospitals "], none⟩] =
      [⟨some "A", none, none, none, some [.str "Hospitals"], none⟩,
       ⟨some "D", none, none, none, some [.str "hospitals "], none⟩] := by
  rw [(fetch_hospital_datasets_spec
    [⟨some "A", none, none, none, some [.str "Hospitals"], none⟩,
     ⟨some "B", none, none, none, some [.str "Nursing Homes"], none⟩,
     ⟨some "C", none, none, none, none, none⟩,
     ⟨some "D", none, none, none, some [.str "hospitals "], none⟩]).1]
  decide

theorem eligibleDist_witness :
    eligibleDist ⟨some "application/pdf", some "http://x/a.pdf", some "http://y"⟩ = false ∧
    eligibleDist ⟨some "text/csv", none, some "http://y/b.csv"⟩ = true :=
  ⟨eligibleDist_spec.2.2.2.1 ⟨some "application/pdf", some "http://x/a.pdf", some "http://y"⟩ rfl,
   (eligibleDist_spec.2.2.2.2 "http://y/b.csv" (by decide)).1⟩

theorem distributions_to_download_frame_witness :
    (distributions_to_download
      ⟨some "DS1", none, some "T", some " 2023-02-01 ", none,
        some [⟨some "text/csv", some "http://x/a.csv", none⟩]⟩
      ⟨none, []⟩).2 = ⟨none, []⟩ :=
  (distributions_to_download_frame
    ⟨some "DS1", none, some "T", some " 2023-02-01 ", none,
      some [⟨some "text/csv", some "http://x/a.csv", none⟩]⟩
    ⟨none, []⟩).1

end CMS
